import Mathlib

/-!
# Verification of the PP-RAG Secure HNSW wrappers

Shallow embedding of the Python wrapper layer of the PP-RAG repository
(`src/python/ckks_wrapper.py`, `src/python/ckks_wrapper2.py`), covering:

* `HEContext.encrypt` (dimension check before CKKS encryption),
* `SecureHNSWWrapper._random_level` (the geometric level generator),
* `SecureHNSWWrapper.build_index` (id and level assignment per batch),
* `SecureHNSWWrapper2.get_communication_bytes` / `reset_communication_counter`
  (the `hasattr`-guarded access to the variant-2 communication counter),
* the search contract of the C++ `SecureHNSWEncrypted.search`, modelled from
  the specification because the C++ module is not part of the Python sources.

Machine integers do not overflow in any of the embedded paths, so `Nat`/`Int`
are used directly; Python floats are modelled as real numbers.
-/

namespace PPRAG

/-- Index configuration as read by `SecureHNSWWrapper.__init__`:
`config.get('index', {})` with keys `hnsw_m` (default 16),
`hnsw_ef_construction` (default 200), `hnsw_ef_search` (default 100).
No maximum-level key exists in the configuration. -/
structure IndexConfig where
  hnsw_m : ℕ := 16
  hnsw_ef_construction : ℕ := 200
  hnsw_ef_search : ℕ := 100
deriving DecidableEq, Repr

/-- A numpy array as far as `HEContext.encrypt` inspects it: a shape and flat
real-valued data (`vector.astype(np.float64)` keeps the shape). -/
structure NpArray where
  shape : List ℕ
  data : List ℚ
deriving DecidableEq, Repr

/-- `numpy.ndarray.ndim`: the length of the shape tuple. -/
def NpArray.ndim (a : NpArray) : ℕ := a.shape.length

/-- Error raised by the wrapper layer.  `EncryptionError` stands for the
`ValueError("Only 1D vectors supported for single encryption")` raised by
`HEContext.encrypt`, which the specification's error taxonomy calls
`EncryptionError`. -/
inductive HEError where
  | EncryptionError
deriving DecidableEq, Repr

/-- Opaque ciphertext handle produced by `ctx.encrypt_vector`. -/
structure Ciphertext where
  data : List ℚ
deriving DecidableEq, Repr

/-- `HEContext.encrypt` (`ckks_wrapper.py` lines 31–38, identical in
`HEContext2.encrypt`, `ckks_wrapper2.py` lines 43–50): cast to float64, then
`if vec.ndim == 1: return self.ctx.encrypt_vector(vec) else: raise ValueError`.
The C++ `encrypt_vector` is modelled from the spec as returning a ciphertext
for every 1-D vector (`encode_and_encrypt(vector) -> Ciphertext`). -/
def HEContext.encrypt (a : NpArray) : Except HEError Ciphertext :=
  if a.ndim = 1 then .ok ⟨a.data⟩ else .error .EncryptionError

/-! ## Level generation (`SecureHNSWWrapper._random_level`)

```python
mult = 1.0 / math.log(16)
level = 0
while random.random() < math.exp(-mult) and level < 16:
    level += 1
return level
```

The two wrappers (`ckks_wrapper.py` lines 91–100, `ckks_wrapper2.py` lines
118–126) contain this code verbatim; it is embedded once.  Each evaluation of
the loop condition consumes one fresh draw from the random stream (Python's
`and` short-circuits only after the draw has been made), so the loop is
embedded with an explicit cursor into the draw stream. -/

/-- The per-draw continuation threshold used by the code:
`math.exp(-mult)` with `mult = 1.0 / math.log(16)`.

The literal `16` is hardcoded in `_random_level`; the configured
`hnsw_m` of the wrapper is not consulted, so the function is constant in the
configuration. -/
noncomputable def randomLevelThreshold (_cfg : IndexConfig) : ℝ :=
  Real.exp (-(1 / Real.log 16))

/-- The threshold the specification describes: `exp(-1/ln M)` for the
configured maximum per-layer degree `M`. (Stated from the spec's words, to be
compared with `randomLevelThreshold`.) -/
noncomputable def specLevelThreshold (M : ℝ) : ℝ :=
  Real.exp (-(1 / Real.log M))

/-- The `while` loop of `_random_level`, over the stream of comparison
outcomes `below i = (draw i < exp(-mult))`.  `pos` is the cursor into the
draw stream (each condition evaluation consumes draw `pos`), `level` the
current level.  Returns the final level and the cursor after the loop. -/
def randomLevelLoop (below : ℕ → Bool) (pos level : ℕ) : ℕ × ℕ :=
  if h : below pos = true ∧ level < 16 then
    randomLevelLoop below (pos + 1) (level + 1)
  else
    (level, pos + 1)
termination_by 16 - level
decreasing_by omega

/-- `_random_level` for a given configuration and real-valued draw stream,
returning the level together with the next unconsumed draw index. -/
noncomputable def randomLevelFrom (cfg : IndexConfig) (draws : ℕ → ℝ)
    (pos : ℕ) : ℕ × ℕ :=
  randomLevelLoop (fun i => decide (draws i < randomLevelThreshold cfg)) pos 0

/-- `_random_level` called on a fresh random stream. -/
noncomputable def randomLevel (cfg : IndexConfig) (draws : ℕ → ℝ) : ℕ :=
  (randomLevelFrom cfg draws 0).1

/-! ## Index building (`SecureHNSWWrapper.build_index`)

```python
for i, vec in enumerate(vectors):
    enc_vec = self.he_ctx.encrypt(vec)
    level = self._random_level()
    self.hnsw.add_encrypted_node(i, enc_vec, level)
```

(`ckks_wrapper.py` lines 58–83; `ckks_wrapper2.py` lines 86–98 are
identical up to log messages.)  The node id passed to `add_encrypted_node`
is the `enumerate` position `i` within the current call, restarting at 0 on
every call. -/

/-- One inserted node: the id passed to `add_encrypted_node`, the ciphertext
and the level. -/
structure InsertedNode where
  id : ℕ
  cipher : Ciphertext
  level : ℕ
deriving DecidableEq, Repr

/-- The loop body of `build_index`: walks the vector list, encrypting each
vector and drawing its level from the shared random stream (cursor `pos`);
`i` is the `enumerate` counter.  An encryption failure propagates as the
Python exception does, aborting the rest of the loop. -/
noncomputable def buildIndexGo (cfg : IndexConfig) (draws : ℕ → ℝ) :
    List NpArray → ℕ → ℕ → Except HEError (List InsertedNode)
  | [], _, _ => .ok []
  | vec :: rest, i, pos =>
    match HEContext.encrypt vec with
    | .error e => .error e
    | .ok c =>
      let r := randomLevelFrom cfg draws pos
      match buildIndexGo cfg draws rest (i + 1) r.2 with
      | .error e => .error e
      | .ok tl => .ok (⟨i, c, r.1⟩ :: tl)

/-- `build_index(vectors)`: the sequence of `add_encrypted_node` calls made
by one invocation, with `enumerate` starting at 0 and the random stream
starting at cursor 0. -/
noncomputable def buildIndex (cfg : IndexConfig) (draws : ℕ → ℝ)
    (vectors : List NpArray) : Except HEError (List InsertedNode) :=
  buildIndexGo cfg draws vectors 0 0

/-- The sequence of levels drawn by `n` consecutive `_random_level()` calls
starting at draw-stream cursor `pos`.  Depends only on the configuration,
the draw stream and `n` — not on any vector data. -/
noncomputable def levelSeq (cfg : IndexConfig) (draws : ℕ → ℝ) :
    ℕ → ℕ → List ℕ
  | _, 0 => []
  | pos, n + 1 =>
    (randomLevelFrom cfg draws pos).1 ::
      levelSeq cfg draws (randomLevelFrom cfg draws pos).2 n

/-- The ids passed to `add_encrypted_node` by one `build_index(vectors)`
call are exactly the `enumerate` positions `0, 1, …, len(vectors)-1`;
this is visible directly in the source (`self.hnsw.add_encrypted_node(i,
enc_vec, level)`). -/
def buildIndexIds (vectors : List NpArray) : List ℕ :=
  List.range vectors.length

/-- The ids assigned over the lifetime of one index instance by a sequence
of `build_index` calls on it (as `BenchmarkRunner2.benchmark_update` does:
repeated `self.hnsw.build_index(new_vectors)` on one instance): each call
re-enumerates from 0. -/
def lifetimeIds (batches : List (List NpArray)) : List ℕ :=
  (batches.map buildIndexIds).flatten

/-! ## Variant-2 communication accounting
(`SecureHNSWWrapper2.get_communication_bytes` /
 `reset_communication_counter`, `ckks_wrapper2.py` lines 107–116)

```python
def get_communication_bytes(self) -> int:
    if hasattr(self.hnsw, 'get_communication_bytes'):
        return self.hnsw.get_communication_bytes()
    return 0

def reset_communication_counter(self):
    if hasattr(self.hnsw, 'reset_communication_counter'):
        self.hnsw.reset_communication_counter()
```

The backend `self.hnsw` is `pprag_core2.SecureHNSWEncrypted2` when that
class exists, otherwise the variant-1 engine `pprag_core.SecureHNSWEncrypted`
(constructor fallback, lines 77–82).  Only the variant-2 engine has the
counter attributes, so `hasCommCounter` records which branch the `hasattr`
tests take. -/

/-- The state of the backend engine held by a `SecureHNSWWrapper2`.
`hasCommCounter = true` models the `SecureHNSWEncrypted2` backend (the
`hasattr` tests succeed); `false` models the variant-1 fallback engine,
which lacks both counter attributes.  `commBytes` is the C++ counter,
modelled from the spec (the C++ module is outside the Python sources):
a single integer, incremented by the serialized size of every ciphertext
sent across the trust boundary during a search. -/
structure Hnsw2Backend where
  hasCommCounter : Bool
  commBytes : ℕ
deriving DecidableEq, Repr

namespace SecureHNSWWrapper2

/-- `get_communication_bytes`: read the backend counter when the attribute
exists, else return 0.  Total — it never raises. -/
def get_communication_bytes (b : Hnsw2Backend) : ℕ :=
  if b.hasCommCounter then b.commBytes else 0

/-- `reset_communication_counter`: zero the backend counter when the
attribute exists, else do nothing. -/
def reset_communication_counter (b : Hnsw2Backend) : Hnsw2Backend :=
  if b.hasCommCounter then { b with commBytes := 0 } else b

/-- `get_communication_bytes` with the backend state threaded explicitly:
the underlying C++ getter is modelled from the spec as a pure read
(`get_communication_bytes()` reads it without resetting), and the
`hasattr`-miss branch touches nothing. -/
def get_communication_bytes_call (b : Hnsw2Backend) : ℕ × Hnsw2Backend :=
  if b.hasCommCounter then (b.commBytes, b) else (0, b)

/-- Modelled from the spec: the effect of one `search` on the communication
counter — `r` comparison round trips, each transmitting a ciphertext of
serialized size `s` bytes, each incrementing the counter by `s`
(`SecureHNSWEncrypted2` only; the variant-1 engine performs no client
round trips and has no counter). -/
def searchCommEffect (r s : ℕ) (b : Hnsw2Backend) : Hnsw2Backend :=
  if b.hasCommCounter then
    { b with commBytes := (List.range r).foldl (fun acc _ => acc + s) b.commBytes }
  else b

end SecureHNSWWrapper2

/-! ## Search (`SecureHNSWEncrypted.search`, modelled from the spec)

The Python wrappers delegate `search(query, k)` to the C++ engine
(`ckks_wrapper.py` lines 85–89, `ckks_wrapper2.py` lines 100–105), whose
source is not part of the Python tree.  The search contract is therefore
modelled from the specification (§4.4): `k` must be ≥ 1, failing with
`InvalidArgument` otherwise, rejected before any graph mutation; otherwise
the `k` node ids with smallest final-layer distance to the query are
returned, ties broken by ascending id, and all ids are returned when fewer
than `k` nodes exist; search is read-only. -/

/-- Search-path errors of the engine (spec §7). -/
inductive SearchError where
  | InvalidArgument
deriving DecidableEq, Repr

/-- Modelled from the spec: the nearest-first ordering used by `search` —
smaller distance first, ties broken by ascending id.  `dist i` is the
homomorphically computed final-layer distance of node `i` to the query. -/
def searchLE (dist : ℕ → ℚ) (a b : ℕ) : Bool :=
  decide (dist a < dist b ∨ (dist a = dist b ∧ a ≤ b))

/-- Modelled from the spec: `SecureHNSWEncrypted.search(query, k)` over an
index whose node ids are `ids` and whose distance-to-query function is
`dist`.  Rejects `k < 1` with `InvalidArgument`; otherwise returns the up
to `k` nearest ids, nearest first. -/
def specSearch (dist : ℕ → ℚ) (ids : List ℕ) (k : ℤ) :
    Except SearchError (List ℕ) :=
  if k < 1 then .error .InvalidArgument
  else .ok ((ids.mergeSort (searchLE dist)).take k.toNat)

/-- `search` with the index state threaded explicitly, to express that a
call — failing or not — leaves the graph unmodified (spec: search is
read-only; `InvalidArgument` is rejected before any graph mutation). -/
def specSearchSt (dist : ℕ → ℚ) (ids : List ℕ) (k : ℤ) :
    Except SearchError (List ℕ) × List ℕ :=
  (specSearch dist ids k, ids)

/-! ## Helper lemmas -/

/-- Length of the run of consecutive `true`s of `below` starting at `pos`,
capped at `n`.  Characterizes the value of `randomLevelLoop`. -/
def belowRun (below : ℕ → Bool) : ℕ → ℕ → ℕ
  | _, 0 => 0
  | pos, n + 1 => if below pos then belowRun below (pos + 1) n + 1 else 0

theorem belowRun_le (below : ℕ → Bool) : ∀ pos n, belowRun below pos n ≤ n := by
  intro pos n
  induction n generalizing pos with
  | zero => simp [belowRun]
  | succ n ih =>
    rw [belowRun]
    by_cases h : below pos
    · simp only [if_pos h]
      exact Nat.succ_le_succ (ih (pos + 1))
    · simp [if_neg h]

theorem le_belowRun_iff (below : ℕ → Bool) :
    ∀ l n pos, l ≤ n →
      (l ≤ belowRun below pos n ↔ ∀ j < l, below (pos + j) = true) := by
  intro l
  induction l with
  | zero => intro n pos _; simp
  | succ l ih =>
    intro n pos hln
    obtain ⟨m, rfl⟩ : ∃ m, n = m + 1 := ⟨n - 1, by omega⟩
    rw [belowRun]
    by_cases h : below pos
    · rw [if_pos h, Nat.succ_le_succ_iff, ih m (pos + 1) (by omega)]
      constructor
      · intro hall j hj
        match j with
        | 0 => simpa using h
        | j + 1 =>
          have := hall j (by omega)
          simpa [Nat.add_comm, Nat.add_assoc, Nat.add_left_comm] using this
      · intro hall j hj
        have := hall (j + 1) (by omega)
        simpa [Nat.add_comm, Nat.add_assoc, Nat.add_left_comm] using this
    · rw [if_neg h]
      constructor
      · omega
      · intro hall
        have := hall 0 (by omega)
        simp at this
        exact absurd this h

/-- Value of the `_random_level` loop: starting from `level ≤ 16` it adds the
run of consecutive successful draws, capped at the remaining headroom, and
leaves the stream cursor one past the last consumed draw. -/
theorem randomLevelLoop_eq (below : ℕ → Bool) :
    ∀ n pos level, 16 - level = n → level ≤ 16 →
      randomLevelLoop below pos level
        = (level + belowRun below pos (16 - level),
           pos + belowRun below pos (16 - level) + 1) := by
  intro n
  induction n with
  | zero =>
    intro pos level hn hle
    have h16 : level = 16 := by omega
    subst h16
    rw [randomLevelLoop, dif_neg (by simp)]
    simp [belowRun]
  | succ n ih =>
    intro pos level hn hle
    have hlt : level < 16 := by omega
    obtain ⟨m, hm⟩ : ∃ m, 16 - level = m + 1 := ⟨n, by omega⟩
    rw [randomLevelLoop]
    by_cases h : below pos = true ∧ level < 16
    · rw [dif_pos h]
      rw [ih (pos + 1) (level + 1) (by omega) (by omega)]
      have h1 : 16 - (level + 1) = m := by omega
      rw [h1, hm, belowRun, if_pos h.1]
      simp only [Prod.mk.injEq]
      constructor <;> omega
    · have hb : ¬ below pos = true := fun hb => h ⟨hb, hlt⟩
      rw [dif_neg h, hm, belowRun, if_neg hb]
      simp

theorem randomLevel_eq_belowRun (cfg : IndexConfig) (draws : ℕ → ℝ) :
    randomLevel cfg draws
      = belowRun (fun i => decide (draws i < randomLevelThreshold cfg)) 0 16 := by
  rw [randomLevel, randomLevelFrom,
    randomLevelLoop_eq _ 16 0 0 (by omega) (by omega)]
  simp

theorem randomLevelFrom_eq (cfg : IndexConfig) (draws : ℕ → ℝ) (pos : ℕ) :
    randomLevelFrom cfg draws pos
      = (belowRun (fun i => decide (draws i < randomLevelThreshold cfg)) pos 16,
         pos + belowRun (fun i => decide (draws i < randomLevelThreshold cfg)) pos 16 + 1) := by
  rw [randomLevelFrom, randomLevelLoop_eq _ 16 pos 0 (by omega) (by omega)]
  simp

/-- When every vector is 1-dimensional, `build_index` completes, assigns the
`enumerate` positions `i, i+1, …` as ids, and assigns the levels drawn from
the random stream starting at cursor `pos`, irrespective of vector data. -/
theorem buildIndexGo_ok (cfg : IndexConfig) (draws : ℕ → ℝ) :
    ∀ (vecs : List NpArray) (i pos : ℕ), (∀ a ∈ vecs, a.ndim = 1) →
      ∃ ns, buildIndexGo cfg draws vecs i pos = .ok ns ∧
        List.map InsertedNode.id ns = List.range' i vecs.length ∧
        List.map InsertedNode.level ns = levelSeq cfg draws pos vecs.length := by
  intro vecs
  induction vecs with
  | nil =>
    intro i pos _
    exact ⟨[], rfl, by simp [List.range'], by simp [levelSeq]⟩
  | cons v rest ih =>
    intro i pos h
    have hv : v.ndim = 1 := h v (by simp)
    have henc : HEContext.encrypt v = .ok ⟨v.data⟩ := by
      simp [HEContext.encrypt, hv]
    obtain ⟨tl, htl, hids, hlvls⟩ :=
      ih (i + 1) (randomLevelFrom cfg draws pos).2
        (fun a ha => h a (by simp [ha]))
    refine ⟨⟨i, ⟨v.data⟩, (randomLevelFrom cfg draws pos).1⟩ :: tl, ?_, ?_, ?_⟩
    · simp only [buildIndexGo, henc, htl]
    · simp [hids, List.range']
    · simp [hlvls, levelSeq]

theorem log_sixteen_pos : (0 : ℝ) < Real.log 16 :=
  Real.log_pos (by norm_num)

theorem log_256_eq : Real.log (256 : ℝ) = 2 * Real.log 16 := by
  have h : (256 : ℝ) = 16 ^ (2 : ℕ) := by norm_num
  rw [h, Real.log_pow]
  norm_num

theorem randomLevelThreshold_pos (cfg : IndexConfig) :
    0 < randomLevelThreshold cfg :=
  Real.exp_pos _

theorem randomLevelThreshold_lt_one (cfg : IndexConfig) :
    randomLevelThreshold cfg < 1 := by
  rw [randomLevelThreshold, Real.exp_lt_one_iff]
  have := log_sixteen_pos
  have h1 : 0 < 1 / Real.log 16 := by positivity
  linarith

theorem randomLevelThreshold_lt_spec_256 (cfg : IndexConfig) :
    randomLevelThreshold cfg < specLevelThreshold 256 := by
  rw [randomLevelThreshold, specLevelThreshold, Real.exp_lt_exp, log_256_eq]
  have hL := log_sixteen_pos
  have h2 : 1 / (2 * Real.log 16) < 1 / Real.log 16 :=
    one_div_lt_one_div_of_lt hL (by linarith)
  linarith

theorem foldl_add_const (s : ℕ) :
    ∀ r acc, (List.range r).foldl (fun a _ => a + s) acc = acc + r * s := by
  intro r
  induction r with
  | zero => intro acc; simp
  | succ r ih =>
    intro acc
    rw [List.range_succ, List.foldl_append, ih]
    simp only [List.foldl]
    ring

/-! ## Claim theorems -/

/-- C6: for every configuration and every (arbitrary, possibly adversarial)
infinite stream of draws, `_random_level` returns a level between 0 and the
cap 16 — the maximum level cap is the hardcoded literal 16, and no
configuration key can change it.  Termination for every stream is witnessed
by `randomLevelLoop` being a total function (its recursion is well-founded
on `16 - level`, exactly the
`level < 16` guard of the Python `while` loop). -/
theorem randomLevel_le_cap (cfg : IndexConfig) (draws : ℕ → ℝ) :
    0 ≤ randomLevel cfg draws ∧ randomLevel cfg draws ≤ 16 := by
  refine ⟨Nat.zero_le _, ?_⟩
  rw [randomLevel_eq_belowRun]
  exact belowRun_le _ 0 16

/-- C8: `HEContext.encrypt` (identically `HEContext2.encrypt`) fails with
`EncryptionError` — the raised `ValueError` — and produces no ciphertext on
every input whose shape is not 1-dimensional, and returns a ciphertext for
every 1-dimensional vector. -/
theorem encrypt_dimension_check (a : NpArray) :
    (a.ndim ≠ 1 → HEContext.encrypt a = .error .EncryptionError) ∧
    (a.ndim = 1 → ∃ c, HEContext.encrypt a = .ok c) := by
  refine ⟨fun h => ?_, fun h => ⟨⟨a.data⟩, ?_⟩⟩ <;> simp [HEContext.encrypt, h]

theorem encrypt_dimension_check_witness :
    (NpArray.ndim ⟨[2, 3], []⟩ ≠ 1 ∧
      HEContext.encrypt ⟨[2, 3], []⟩ = .error .EncryptionError) ∧
    (NpArray.ndim ⟨[3], [1, 2, 3]⟩ = 1 ∧
      ∃ c, HEContext.encrypt ⟨[3], [1, 2, 3]⟩ = .ok c) :=
  ⟨⟨by decide, (encrypt_dimension_check ⟨[2, 3], []⟩).1 (by decide)⟩,
   ⟨by decide, (encrypt_dimension_check ⟨[3], [1, 2, 3]⟩).2 (by decide)⟩⟩

/-- C10: on a `SecureHNSWWrapper2` whose constructor took the fallback to
the variant-1 engine (no communication-counter attributes, so every
`hasattr` test is false), `get_communication_bytes` returns 0 and
`reset_communication_counter` leaves the backend state unchanged.  Both are
total Lean functions, so neither call can raise. -/
theorem fallback_comm_safe (b : Hnsw2Backend) (h : b.hasCommCounter = false) :
    SecureHNSWWrapper2.get_communication_bytes b = 0 ∧
    SecureHNSWWrapper2.reset_communication_counter b = b := by
  constructor <;>
    simp [SecureHNSWWrapper2.get_communication_bytes,
      SecureHNSWWrapper2.reset_communication_counter, h]

theorem fallback_comm_safe_witness :
    Hnsw2Backend.hasCommCounter ⟨false, 7⟩ = false ∧
    SecureHNSWWrapper2.get_communication_bytes ⟨false, 7⟩ = 0 ∧
    SecureHNSWWrapper2.reset_communication_counter ⟨false, 7⟩ = ⟨false, 7⟩ :=
  ⟨by decide, (fallback_comm_safe ⟨false, 7⟩ rfl).1,
    (fallback_comm_safe ⟨false, 7⟩ rfl).2⟩

/-- C2: on the variant-2 backend, a `reset_communication_counter()` followed
by one search that performs `r` comparison round trips of `s` serialized
bytes each leaves `get_communication_bytes()` at exactly `r * s`; the read
is pure (it returns the backend unchanged, so two consecutive reads agree);
and a backend without the counter attribute — the variant-1 engine — always
reports 0. -/
theorem comm_accounting (b : Hnsw2Backend) (r s : ℕ)
    (hb : b.hasCommCounter = true) :
    SecureHNSWWrapper2.get_communication_bytes
        (SecureHNSWWrapper2.searchCommEffect r s
          (SecureHNSWWrapper2.reset_communication_counter b)) = r * s ∧
    (∀ b' : Hnsw2Backend,
      (SecureHNSWWrapper2.get_communication_bytes_call b').2 = b' ∧
      (SecureHNSWWrapper2.get_communication_bytes_call
          (SecureHNSWWrapper2.get_communication_bytes_call b').2).1
        = (SecureHNSWWrapper2.get_communication_bytes_call b').1) ∧
    (∀ b₁ : Hnsw2Backend, b₁.hasCommCounter = false →
      SecureHNSWWrapper2.get_communication_bytes b₁ = 0) := by
  refine ⟨?_, fun b' => ⟨?_, ?_⟩, fun b₁ h₁ => ?_⟩
  · simp [SecureHNSWWrapper2.get_communication_bytes,
      SecureHNSWWrapper2.searchCommEffect,
      SecureHNSWWrapper2.reset_communication_counter, hb, foldl_add_const]
  · rw [SecureHNSWWrapper2.get_communication_bytes_call]
    by_cases h : b'.hasCommCounter <;> simp [h]
  · rw [SecureHNSWWrapper2.get_communication_bytes_call]
    by_cases h : b'.hasCommCounter <;>
      simp [SecureHNSWWrapper2.get_communication_bytes_call, h]
  · simp [SecureHNSWWrapper2.get_communication_bytes, h₁]

theorem comm_accounting_witness :
    Hnsw2Backend.hasCommCounter ⟨true, 5⟩ = true ∧
    SecureHNSWWrapper2.get_communication_bytes
        (SecureHNSWWrapper2.searchCommEffect 3 11
          (SecureHNSWWrapper2.reset_communication_counter ⟨true, 5⟩)) = 3 * 11 :=
  ⟨by decide, (comm_accounting ⟨true, 5⟩ 3 11 rfl).1⟩

/-- C3 counterexample: with `hnsw_m = 256` configured, the continuation
threshold actually used by `_random_level` differs from the
`exp(-1/ln M)` the claim specifies for the configured `M`, because the code
hardcodes `math.log(16)`. -/
theorem randomLevelThreshold_ne_spec :
    randomLevelThreshold ⟨256, 200, 100⟩ ≠ specLevelThreshold 256 :=
  ne_of_lt (randomLevelThreshold_lt_spec_256 ⟨256, 200, 100⟩)

/-- C3 amended: the per-draw continuation threshold of `_random_level` is
`exp(-1/ln 16)` — the spec's formula instantiated at `M = 16` — for every
configuration, independent of the configured `hnsw_m`. -/
theorem randomLevelThreshold_hardcoded (cfg cfg' : IndexConfig) :
    randomLevelThreshold cfg = specLevelThreshold 16 ∧
    randomLevelThreshold cfg = randomLevelThreshold cfg' :=
  ⟨rfl, rfl⟩

/-- C1 counterexample: on one index instance, a `build_index` call with one
vector assigns id 0, and a subsequent `build_index` call with a new vector
assigns id 0 again — not the fresh id 1 the claim requires — so two
distinct nodes share an id, and the lifetime id sequence is `[0, 0]`, not
the sequential `[0, 1]`. -/
theorem buildIndex_ids_restart :
    Except.map (List.map InsertedNode.id)
        (buildIndex {} (fun _ => 0) [⟨[3], [1, 2, 3]⟩]) = .ok [0] ∧
    Except.map (List.map InsertedNode.id)
        (buildIndex {} (fun _ => 0) [⟨[3], [4, 5, 6]⟩]) = .ok [0] ∧
    lifetimeIds [[⟨[3], [1, 2, 3]⟩], [⟨[3], [4, 5, 6]⟩]] = [0, 0] ∧
    ¬ (lifetimeIds [[⟨[3], [1, 2, 3]⟩], [⟨[3], [4, 5, 6]⟩]]).Nodup := by
  refine ⟨?_, ?_, by decide, by decide⟩
  · obtain ⟨ns, hgo, hids, _⟩ :=
      buildIndexGo_ok {} (fun _ => 0) [⟨[3], [1, 2, 3]⟩] 0 0
        (by intro a ha; simp_all [NpArray.ndim])
    rw [buildIndex, hgo]
    simp [Except.map, hids, List.range']
  · obtain ⟨ns, hgo, hids, _⟩ :=
      buildIndexGo_ok {} (fun _ => 0) [⟨[3], [4, 5, 6]⟩] 0 0
        (by intro a ha; simp_all [NpArray.ndim])
    rw [buildIndex, hgo]
    simp [Except.map, hids, List.range']

/-- C1 amended: within each single `build_index(vectors)` call, node ids
are assigned sequentially 0, 1, …, len(vectors)−1 in insertion order (the
id is the `enumerate` position) and are pairwise distinct within that call;
a later `build_index` call on the same instance restarts at id 0 rather
than continuing one past the previously assigned id (see the
counterexample). -/
theorem buildIndex_ids_enumerate (cfg : IndexConfig) (draws : ℕ → ℝ)
    (vectors : List NpArray) (h : ∀ a ∈ vectors, a.ndim = 1) :
    Except.map (List.map InsertedNode.id) (buildIndex cfg draws vectors)
      = .ok (buildIndexIds vectors) ∧
    (buildIndexIds vectors).Nodup := by
  obtain ⟨ns, hgo, hids, _⟩ := buildIndexGo_ok cfg draws vectors 0 0 h
  refine ⟨?_, by simp [buildIndexIds, List.nodup_range]⟩
  rw [buildIndex, hgo]
  rw [buildIndexIds, List.range_eq_range']
  simp [Except.map, hids]

theorem buildIndex_ids_enumerate_witness :
    (∀ a ∈ [(⟨[2], [1, 2]⟩ : NpArray)], a.ndim = 1) ∧
    (Except.map (List.map InsertedNode.id)
        (buildIndex {} (fun _ => 0) [⟨[2], [1, 2]⟩])
      = .ok (buildIndexIds [⟨[2], [1, 2]⟩]) ∧
     (buildIndexIds [(⟨[2], [1, 2]⟩ : NpArray)]).Nodup) :=
  ⟨by decide, buildIndex_ids_enumerate {} (fun _ => 0) [⟨[2], [1, 2]⟩] (by decide)⟩

/-- C9: the level assigned at each position by `build_index` is independent
of the vector contents — two builds over equally long (well-shaped) vector
lists that consume the same random draw stream assign identical level
sequences, because `_random_level()` is called on the shared stream after
an encryption that consumes no draws, and the vector never enters the level
computation. -/
theorem levels_independent_of_vectors (cfg : IndexConfig) (draws : ℕ → ℝ)
    (v1 v2 : List NpArray) (hlen : v1.length = v2.length)
    (h1 : ∀ a ∈ v1, a.ndim = 1) (h2 : ∀ a ∈ v2, a.ndim = 1) :
    Except.map (List.map InsertedNode.level) (buildIndex cfg draws v1)
      = Except.map (List.map InsertedNode.level) (buildIndex cfg draws v2) := by
  obtain ⟨ns1, hgo1, _, hl1⟩ := buildIndexGo_ok cfg draws v1 0 0 h1
  obtain ⟨ns2, hgo2, _, hl2⟩ := buildIndexGo_ok cfg draws v2 0 0 h2
  simp only [buildIndex]
  rw [hgo1, hgo2]
  simp only [Except.map]
  rw [hl1, hl2, hlen]

theorem levels_independent_of_vectors_witness :
    ([(⟨[1], [5]⟩ : NpArray)].length = [(⟨[1], [9]⟩ : NpArray)].length) ∧
    Except.map (List.map InsertedNode.level)
        (buildIndex {} (fun _ => 1) [⟨[1], [5]⟩])
      = Except.map (List.map InsertedNode.level)
          (buildIndex {} (fun _ => 1) [⟨[1], [9]⟩]) :=
  ⟨by decide,
    levels_independent_of_vectors {} (fun _ => 1) [⟨[1], [5]⟩] [⟨[1], [9]⟩]
      (by decide) (by decide) (by decide)⟩

/-- C5: `search(query, k)` with `k < 1` fails with `InvalidArgument` and
leaves the index state unchanged (the check precedes any traversal, and
search is read-only); for every `k ≥ 1` it succeeds, so it never fails for
this reason. -/
theorem search_rejects_invalid_k (dist : ℕ → ℚ) (ids : List ℕ) (k : ℤ) :
    (k < 1 → specSearchSt dist ids k = (.error .InvalidArgument, ids)) ∧
    (1 ≤ k → ∃ res, specSearchSt dist ids k = (.ok res, ids)) := by
  constructor
  · intro hk
    simp [specSearchSt, specSearch, if_pos hk]
  · intro hk
    refine ⟨(ids.mergeSort (searchLE dist)).take k.toNat, ?_⟩
    simp [specSearchSt, specSearch, if_neg (by omega : ¬ k < 1)]

theorem search_rejects_invalid_k_witness :
    (specSearchSt (fun _ => 0) [3] 0 = (.error .InvalidArgument, [3])) ∧
    (∃ res, specSearchSt (fun _ => 0) [3] 1 = (.ok res, [3])) :=
  ⟨(search_rejects_invalid_k (fun _ => 0) [3] 0).1 (by decide),
   (search_rejects_invalid_k (fun _ => 0) [3] 1).2 (by decide)⟩

/-- C4: for an index with `Nodup` node ids and any `k ≥ 1`, `search(q, k)`
succeeds and returns pairwise-distinct ids; it returns exactly
`min(k, n)` of them — `k` ids when `k ≤ n`, and all `n` ids exactly once
(a permutation of the id set) when `k ≥ n`; in particular an empty index
yields the empty sequence rather than an error. -/
theorem search_returns_top_k (dist : ℕ → ℚ) (ids : List ℕ) (k : ℤ)
    (hn : ids.Nodup) (hk : 1 ≤ k) :
    ∃ res, specSearch dist ids k = .ok res ∧ res.Nodup ∧
      res.length = min k.toNat ids.length ∧
      (ids.length ≤ k.toNat → res.Perm ids) ∧
      (ids = [] → res = []) := by
  have hnk : ¬ k < 1 := by omega
  have hperm := List.mergeSort_perm ids (searchLE dist)
  refine ⟨(ids.mergeSort (searchLE dist)).take k.toNat, ?_, ?_, ?_, ?_, ?_⟩
  · simp [specSearch, if_neg hnk]
  · exact List.Nodup.sublist (List.take_sublist _ _) (hperm.symm.nodup hn)
  · rw [List.length_take, hperm.length_eq]
  · intro hle
    rw [List.take_of_length_le (by rw [hperm.length_eq]; exact hle)]
    exact hperm
  · intro h
    subst h
    simp

theorem search_returns_top_k_witness :
    ([0, 1].Nodup ∧ (1:ℤ) ≤ 2) ∧
    ∃ res, specSearch (fun _ => 0) [0, 1] 2 = .ok res ∧ res.Nodup ∧
      res.length = min (2:ℤ).toNat [0, 1].length ∧
      ([0, 1].length ≤ (2:ℤ).toNat → res.Perm [0, 1]) ∧
      ([0, 1] = ([] : List ℕ) → res = []) :=
  ⟨⟨by decide, by decide⟩,
    search_returns_top_k (fun _ => 0) [0, 1] 2 (by decide) (by decide)⟩

/-- C7 counterexample: for the configuration with `hnsw_m = 256` and the
draw stream constantly equal to the code's actual threshold
`exp(-1/ln 16)`, the claimed equivalence fails at `l = 1`: every draw is
strictly below the claim's `exp(-1/ln 256)` (so the claim asserts
level ≥ 1), yet `_random_level` exits on the very first draw and returns
level 0. -/
theorem randomLevel_tail_cex :
    ¬ (1 ≤ randomLevel ⟨256, 200, 100⟩
          (fun _ => randomLevelThreshold ⟨256, 200, 100⟩)
        ↔ ∀ i < 1, (fun _ : ℕ => randomLevelThreshold ⟨256, 200, 100⟩) i
            < specLevelThreshold 256) := by
  intro hiff
  have hlev := hiff.mpr (fun i _ => randomLevelThreshold_lt_spec_256 _)
  rw [randomLevel_eq_belowRun] at hlev
  have h01 := (le_belowRun_iff _ 1 16 0 (by omega)).1 hlev 0 (by omega)
  simp only [decide_eq_true_eq] at h01
  exact absurd h01 (lt_irrefl _)

/-- C7 amended: for every `l ≤ 16`, the drawn level is `≥ l` exactly when
each of the first `l` uniform draws is strictly below `exp(-1/ln 16)` — the
hardcoded threshold, for every configuration and independent of the
configured `hnsw_m` — and consequently the Lebesgue measure of the set of
draw prefixes in `[0,1)^l` that produce level `≥ l` is exactly
`exp(-l/ln 16)`. -/
theorem randomLevel_tail_distribution (cfg : IndexConfig) (l : ℕ)
    (hl : l ≤ 16) :
    (∀ draws : ℕ → ℝ,
      l ≤ randomLevel cfg draws ↔
        ∀ i < l, draws i < randomLevelThreshold cfg) ∧
    MeasureTheory.volume
        {x : Fin l → ℝ | (∀ i, 0 ≤ x i ∧ x i < 1) ∧
          l ≤ randomLevel cfg (fun i => if h : i < l then x ⟨i, h⟩ else 1)}
      = ENNReal.ofReal (Real.exp (-(l / Real.log 16))) := by
  have part1 : ∀ draws : ℕ → ℝ,
      l ≤ randomLevel cfg draws ↔
        ∀ i < l, draws i < randomLevelThreshold cfg := by
    intro draws
    rw [randomLevel_eq_belowRun, le_belowRun_iff _ l 16 0 hl]
    constructor
    · intro h i hi
      have := h i hi
      simpa using this
    · intro h j hj
      simpa using h j hj
  have ht1 := randomLevelThreshold_lt_one cfg
  have ht0 := randomLevelThreshold_pos cfg
  refine ⟨part1, ?_⟩
  have hset : {x : Fin l → ℝ | (∀ i, 0 ≤ x i ∧ x i < 1) ∧
        l ≤ randomLevel cfg (fun i => if h : i < l then x ⟨i, h⟩ else 1)}
      = Set.univ.pi (fun _ : Fin l => Set.Ico (0 : ℝ) (randomLevelThreshold cfg)) := by
    ext x
    simp only [Set.mem_setOf_eq, Set.mem_pi, Set.mem_univ, Set.mem_Ico,
      forall_const]
    constructor
    · rintro ⟨hbox, hlev⟩ i
      have hi := (part1 _).1 hlev i.1 i.2
      rw [dif_pos i.2] at hi
      exact ⟨(hbox i).1, by simpa using hi⟩
    · intro h
      refine ⟨fun i => ⟨(h i).1, lt_trans (h i).2 ht1⟩, (part1 _).2 ?_⟩
      intro i hi
      rw [dif_pos hi]
      exact (h ⟨i, hi⟩).2
  rw [hset, MeasureTheory.volume_pi_pi]
  simp only [Real.volume_Ico, sub_zero, Finset.prod_const, Finset.card_univ,
    Fintype.card_fin]
  rw [← ENNReal.ofReal_pow (le_of_lt ht0)]
  congr 1
  rw [randomLevelThreshold, ← Real.exp_nat_mul]
  congr 1
  ring

theorem randomLevel_tail_distribution_witness :
    (0 : ℕ) ≤ 16 ∧
    ((∀ draws : ℕ → ℝ,
        0 ≤ randomLevel {} draws ↔
          ∀ i < 0, draws i < randomLevelThreshold {}) ∧
      MeasureTheory.volume
          {x : Fin 0 → ℝ | (∀ i, 0 ≤ x i ∧ x i < 1) ∧
            0 ≤ randomLevel {} (fun i => if h : i < 0 then x ⟨i, h⟩ else 1)}
        = ENNReal.ofReal (Real.exp (-(((0 : ℕ) : ℝ) / Real.log 16)))) :=
  ⟨by decide, randomLevel_tail_distribution {} 0 (by decide)⟩

end PPRAG
